import Mathlib

/-!
Verification development for `find_proper_nouns.py`.

Text is modelled as `List Char` (Python code points).  Each definition below
embeds the corresponding piece of the Python source; doc comments name the
source construct being modelled.
-/

namespace FindProperNouns

/-- Python `content.split('\n')`: splits on every newline, keeping empty
pieces, so the result always has one more piece than there are newlines
(`"".split('\n') == [""]`). -/
def pySplitLines : List Char → List (List Char)
  | [] => [[]]
  | c :: cs =>
    if c = '\n' then [] :: pySplitLines cs
    else
      match pySplitLines cs with
      | [] => [[c]]
      | l :: ls => (c :: l) :: ls

/-- The entries contributed by one line of the split: the inner loop
`for col_num, char in enumerate(line, start=1)` of the index construction,
with `P` the running `char_pos` and `C` the starting column. -/
def lineEntries (L P C : Nat) : List Char → List (Nat × Nat × Nat)
  | [] => []
  | _ :: cs => (P, L, C) :: lineEntries L (P + 1) (C + 1) cs

/-- The outer loop `for line_num, line in enumerate(lines, start=1)` of the
index construction: per line, emit that line's entries, then advance
`char_pos` past the line and its newline (`char_pos += 1`). -/
def indexEntriesAux (L P : Nat) : List (List Char) → List (Nat × Nat × Nat)
  | [] => []
  | l :: ls => lineEntries L P 1 l ++ indexEntriesAux (L + 1) (P + l.length + 1) ls

/-- The dictionary `char_to_line_col` built at lines 79-86 (detection mode)
and 164-172 (replacement mode) of `find_proper_nouns.py`, as a lookup from
character offset to `(line, column)`. -/
def char_to_line_col (content : List Char) (o : Nat) : Option (Nat × Nat) :=
  (indexEntriesAux 1 0 (pySplitLines content)).lookup o

/-- Clean recursive characterization of the index: walk the content one
character at a time, tracking the current line `L` and column `C`; a newline
is not indexed and resets the column. -/
def refIndex (L C : Nat) : List Char → Nat → Option (Nat × Nat)
  | [], _ => none
  | c :: cs, o =>
    if o = 0 then (if c = '\n' then none else some (L, C))
    else if c = '\n' then refIndex (L + 1) 1 cs (o - 1)
    else refIndex L (C + 1) cs (o - 1)

/-- Python `s.rfind('\n')`: index of the last newline of `s`, `-1` if none. -/
def pyRfind : List Char → Int
  | [] => -1
  | c :: cs =>
    if 0 ≤ pyRfind cs then pyRfind cs + 1 else if c = '\n' then 0 else -1

/-- First piece of the Python split. -/
def firstLine : List Char → List Char
  | [] => []
  | c :: cs => if c = '\n' then [] else c :: firstLine cs

/-- Remaining pieces of the Python split. -/
def restLines : List Char → List (List Char)
  | [] => []
  | c :: cs => if c = '\n' then pySplitLines cs else restLines cs

/-- The fallback recomputation at lines 99-101 (detection) and 179-181
(replacement): `line = content[:o].count('\n') + 1`,
`col = o - content[:o].rfind('\n')` (a Python `int`, hence `Int` here). -/
def fallbackPos (content : List Char) (o : Nat) : Nat × Int :=
  ((content.take o).count '\n' + 1, (o : Int) - pyRfind (content.take o))

/-- Position resolution as both `find_proper_nouns` and `replace_proper_noun`
perform it: dictionary lookup if the offset is indexed, else the fallback. -/
def recordPos (content : List Char) (o : Nat) : Nat × Int :=
  match char_to_line_col content o with
  | some (l, c) => (l, (c : Int))
  | none => fallbackPos content o

/-- Spec-side reading of C4: the number of newline characters strictly before
offset `o`. -/
def newlinesBefore (content : List Char) (o : Nat) : Nat :=
  ((List.range o).filter (fun i => decide (content[i]? = some '\n'))).length

/-- Spec-side reading of C4: the offset of the nearest preceding newline
(the last newline offset strictly before `o`), `-1` when there is none. -/
def lastNewlineBefore (content : List Char) (o : Nat) : Int :=
  match ((List.range o).filter (fun i => decide (content[i]? = some '\n'))).getLast? with
  | some i => (i : Int)
  | none => -1

/-- One-character comparison under the active matching mode: exact when
`case_sensitive`, else Python `re.IGNORECASE`, modelled as per-character
lowercasing (`Char.toLower` is exact for the ASCII data this tool handles). -/
def charsMatch (case_sensitive : Bool) (p c : Char) : Bool :=
  if case_sensitive then p == c else p.toLower == c.toLower

/-- The escaped literal pattern of lines 154-160 matches at the head of `s`. -/
def isMatchAt (case_sensitive : Bool) : List Char → List Char → Bool
  | [], _ => true
  | _ :: _, [] => false
  | p :: ps, c :: cs => charsMatch case_sensitive p c && isMatchAt case_sensitive ps cs

/-- `re.finditer(pattern, content, flags)` at line 175, for the escaped
literal pattern: the leftmost non-overlapping matches as `(start, end)`
offset pairs; the empty pattern matches emptily at every offset including
the end of the buffer.  `pos` is the absolute offset of the head of `s`. -/
def findMatchesAux (case_sensitive : Bool) (pat : List Char) :
    List Char → Nat → List (Nat × Nat)
  | [], pos => if pat.isEmpty then [(pos, pos)] else []
  | c :: rest, pos =>
    match pat with
    | [] => (pos, pos) :: findMatchesAux case_sensitive [] rest (pos + 1)
    | p :: ps =>
      if isMatchAt case_sensitive (p :: ps) (c :: rest) then
        (pos, pos + (p :: ps).length) ::
          findMatchesAux case_sensitive (p :: ps) (rest.drop ps.length)
            (pos + (p :: ps).length)
      else findMatchesAux case_sensitive (p :: ps) rest (pos + 1)
termination_by s _ => s.length
decreasing_by
  all_goals simp_wf
  all_goals omega

/-- One piece of a parsed `re.sub` replacement template: a literal character
or a reference to group 0 (the whole match; the escaped pattern declares no
other groups). -/
inductive TemplItem where
  | lit (c : Char)
  | group0
deriving DecidableEq

/-- Octal digit value. -/
def octDigitVal (c : Char) : Option Nat :=
  if '0' ≤ c ∧ c ≤ '7' then some (c.toNat - '0'.toNat) else none

/-- One escape of a `re.sub` replacement template (the character after a
backslash, with the input that follows it): the template items it produces
and how many further characters it consumes, or `none` for the escapes
CPython's `re._parser.parse_template` rejects for a pattern with zero
capturing groups.  `\\\\ \\a \\b \\f \\n \\r \\t \\v` are character escapes,
`\\g<number>` is a group reference (only group 0 exists here), `\\0` with up
to two octal digits and three-octal-digit escapes of value at most 0o377
are octal escapes, any other digit sequence is an invalid group reference,
any other ASCII letter is a bad escape, and a backslash before any other
character is kept as-is. -/
def escStep (e : Char) (rest2 : List Char) : Option (List TemplItem × Nat) :=
  if e = '\\' then some ([.lit '\\'], 0)
  else if e = 'n' then some ([.lit '\n'], 0)
  else if e = 't' then some ([.lit '\t'], 0)
  else if e = 'r' then some ([.lit '\r'], 0)
  else if e = 'v' then some ([.lit (Char.ofNat 11)], 0)
  else if e = 'f' then some ([.lit (Char.ofNat 12)], 0)
  else if e = 'a' then some ([.lit (Char.ofNat 7)], 0)
  else if e = 'b' then some ([.lit (Char.ofNat 8)], 0)
  else if e = 'g' then
    match rest2 with
    | '<' :: rest3 =>
      match rest3.dropWhile Char.isDigit with
      | '>' :: _ =>
        if (rest3.takeWhile Char.isDigit).isEmpty then none
        else if (rest3.takeWhile Char.isDigit).foldl
            (fun a c => a * 10 + (c.toNat - '0'.toNat)) 0 = 0 then
          some ([.group0], (rest3.takeWhile Char.isDigit).length + 2)
        else none
      | _ => none
    | _ => none
  else if e = '0' then
    match rest2 with
    | d2 :: rest3 =>
      match octDigitVal d2 with
      | some v2 =>
        match rest3 with
        | d3 :: _ =>
          match octDigitVal d3 with
          | some v3 => some ([.lit (Char.ofNat (v2 * 8 + v3))], 2)
          | none => some ([.lit (Char.ofNat v2)], 1)
        | [] => some ([.lit (Char.ofNat v2)], 1)
      | none => some ([.lit (Char.ofNat 0)], 0)
    | [] => some ([.lit (Char.ofNat 0)], 0)
  else if e.isDigit then
    match rest2 with
    | d2 :: rest3 =>
      if d2.isDigit then
        match rest3 with
        | d3 :: _ =>
          match octDigitVal e, octDigitVal d2, octDigitVal d3 with
          | some v1, some v2, some v3 =>
            if v1 * 64 + v2 * 8 + v3 ≤ 255 then
              some ([.lit (Char.ofNat (v1 * 64 + v2 * 8 + v3))], 2)
            else none
          | _, _, _ => none
        | [] => none
      else none
    | [] => none
  else if e.isAlpha then none
  else some ([.lit '\\', .lit e], 0)

/-- Parsing of the `re.sub` replacement string as a substitution template
(CPython `re._parser.parse_template`, for a pattern with zero capturing
groups): ordinary characters are literal, each backslash escape is handled
by `escStep`.  `none` models the `re.error` the parser raises, which
`re.sub` raises before scanning. -/
def parseTemplate : List Char → Option (List TemplItem)
  | [] => some []
  | c :: rest =>
    if c = '\\' then
      match rest with
      | [] => none
      | e :: rest2 =>
        match escStep e rest2 with
        | none => none
        | some (items, k) => (parseTemplate (rest2.drop k)).map (fun ts => items ++ ts)
    else (parseTemplate rest).map (fun ts => .lit c :: ts)
termination_by l => l.length
decreasing_by
  all_goals simp_wf
  all_goals omega

/-- Expansion of a parsed template at one match, `matched` being the text of
group 0 (the matched slice, in its original casing). -/
def expandTemplate (matched : List Char) : List TemplItem → List Char
  | [] => []
  | .lit c :: ts => c :: expandTemplate matched ts
  | .group0 :: ts => matched ++ expandTemplate matched ts

/-- `re.sub(pattern, replace_text, content, flags)` at line 191, after the
template has been parsed to `items`: replace every leftmost non-overlapping
match by the template expanded at that match. -/
def substAux (case_sensitive : Bool) (items : List TemplItem) (pat : List Char) :
    List Char → List Char
  | [] => if pat.isEmpty then expandTemplate [] items else []
  | c :: rest =>
    match pat with
    | [] => expandTemplate [] items ++ c :: substAux case_sensitive items [] rest
    | p :: ps =>
      if isMatchAt case_sensitive (p :: ps) (c :: rest) then
        expandTemplate ((c :: rest).take (p :: ps).length) items ++
          substAux case_sensitive items (p :: ps) (rest.drop ps.length)
      else c :: substAux case_sensitive items (p :: ps) rest
termination_by s => s.length
decreasing_by
  all_goals simp_wf
  all_goals omega

/-- The ±20-character context window of lines 183-186, with newlines
flattened to spaces. -/
def contextOf (content : List Char) (s e : Nat) : List Char :=
  ((content.take (min (e + 20) content.length)).drop (s - 20)).map
    (fun ch => if ch = '\n' then ' ' else ch)

/-- The outcome of one `replace_proper_noun` invocation: the returned triple
`(replacement_count, replacements, modified_content)` plus the write event
(`some new_content` when the file is overwritten, `none` when it is left
untouched). -/
structure ReplaceOutcome where
  count : Nat
  replacements : List (Nat × Int × List Char)
  modified : List Char
  written : Option (List Char)
deriving DecidableEq

/-- `replace_proper_noun` (lines 124-204) on a file whose current content is
`content`: build the escaped literal pattern, build the position index, walk
`re.finditer` recording `(line, col, context)` per match, compute the
substituted content with `re.sub`, and overwrite the file only when not a
dry run and at least one match was found.  `none` models the `re.error`
raised on an invalid replacement template. -/
def replace_proper_noun (content find_text replace_text : List Char)
    (case_sensitive dry_run : Bool) : Option ReplaceOutcome :=
  match parseTemplate replace_text with
  | none => none
  | some items =>
    let ms := findMatchesAux case_sensitive find_text content 0
    let recs := ms.map (fun m =>
      ((recordPos content m.1).1, (recordPos content m.1).2, contextOf content m.1 m.2))
    let modified := substAux case_sensitive items find_text content
    some {
      count := recs.length
      replacements := recs
      modified := modified
      written := if dry_run = false ∧ 0 < recs.length then some modified else none }

/-- The file content after the run, given the write event. -/
def fileAfter (w : Option (List Char)) (old : List Char) : List Char :=
  w.getD old

/-- Some occurrence of `pat` (under the active mode) exists somewhere in
`s`, including the empty occurrence at the end. -/
def containsMatch (case_sensitive : Bool) (pat s : List Char) : Bool :=
  (List.range (s.length + 1)).any (fun i => isMatchAt case_sensitive pat (s.drop i))

/-- Spec-side reading of an occurrence of the find text at the head of `s`:
the leading slice of `s`, compared whole, equals the find text (lowercased
on both sides unless case-sensitive). -/
def specMatchAt (case_sensitive : Bool) (find s : List Char) : Bool :=
  if case_sensitive then decide (s.take find.length = find)
  else decide ((s.take find.length).map Char.toLower = find.map Char.toLower)

/-- Spec-side reading of C1: every leftmost non-overlapping literal
occurrence of `find` replaced character for character by `rep`. -/
def specLiteralReplace (case_sensitive : Bool) (find rep : List Char) :
    List Char → List Char
  | [] => if find.isEmpty then rep else []
  | c :: rest =>
    match find with
    | [] => rep ++ c :: specLiteralReplace case_sensitive [] rep rest
    | p :: ps =>
      if specMatchAt case_sensitive (p :: ps) (c :: rest) then
        rep ++ specLiteralReplace case_sensitive (p :: ps) rep ((c :: rest).drop (p :: ps).length)
      else c :: specLiteralReplace case_sensitive (p :: ps) rep rest
termination_by s => s.length
decreasing_by
  all_goals simp_wf
  all_goals omega

/-- Spec-side reading of C9: the replacement text inserted at every
inter-character position and at the end. -/
def interleave (rep : List Char) : List Char → List Char
  | [] => rep
  | c :: cs => rep ++ c :: interleave rep cs

/-- The replacement-mode table rows printed by `main` (lines 290-293): the
records in the order returned, each context truncated to 47 characters plus
an ellipsis when longer than 50. -/
def mainTableRows (recs : List (Nat × Int × List Char)) : List (Nat × Int × List Char) :=
  recs.map (fun r =>
    (r.1, r.2.1, if 50 < r.2.2.length then r.2.2.take 47 ++ ['.', '.', '.'] else r.2.2))

/-- One recognized entity as the external NLP model reports it: its text,
the absolute character offset of its start (`ent.start_char`), and its
label (`ent.label_`).  The model itself is an opaque external dependency;
its output is a parameter of the detector. -/
structure Entity where
  text : List Char
  start_char : Nat
  label : List Char

/-- The accepted entity categories, line 90. -/
def proper_noun_types : List (List Char) :=
  ["PERSON".toList, "ORG".toList, "GPE".toList, "PRODUCT".toList, "EVENT".toList,
   "WORK_OF_ART".toList, "LAW".toList, "LANGUAGE".toList, "DATE".toList, "TIME".toList]

/-- The entity loop of `find_proper_nouns` (lines 92-105): keep entities
whose label is accepted, resolving each start offset through the position
index (with the fallback recomputation), producing
`(text, line, column, label)` findings in entity order. -/
def find_proper_nouns (content : List Char) (ents : List Entity) :
    List (List Char × Nat × Int × List Char) :=
  ents.filterMap (fun e =>
    if e.label ∈ proper_noun_types then
      some (e.text, (recordPos content e.start_char).1,
        (recordPos content e.start_char).2, e.label)
    else none)

theorem pySplitLines_eq (content : List Char) :
    pySplitLines content = firstLine content :: restLines content := by
  induction content with
  | nil => rfl
  | cons c cs ih =>
    by_cases hc : c = '\n'
    · simp [pySplitLines, firstLine, restLines, hc]
    · simp [pySplitLines, firstLine, restLines, hc, ih]

theorem lineEntries_key_ge {L P C : Nat} {l : List Char} {e : Nat × Nat × Nat}
    (h : e ∈ lineEntries L P C l) : P ≤ e.1 := by
  induction l generalizing P C with
  | nil => simp [lineEntries] at h
  | cons c cs ih =>
    simp only [lineEntries, List.mem_cons] at h
    rcases h with h | h
    · simp [h]
    · exact Nat.le_of_succ_le (ih h)

theorem indexEntriesAux_key_ge {L P : Nat} {ls : List (List Char)}
    {e : Nat × Nat × Nat} (h : e ∈ indexEntriesAux L P ls) : P ≤ e.1 := by
  induction ls generalizing L P with
  | nil => simp [indexEntriesAux] at h
  | cons l ls ih =>
    simp only [indexEntriesAux, List.mem_append] at h
    rcases h with h | h
    · exact lineEntries_key_ge h
    · have := ih h
      omega

theorem lookup_append_assoc (xs ys : List (Nat × Nat × Nat)) (k : Nat) :
    (xs ++ ys).lookup k = ((xs.lookup k).orElse (fun _ => ys.lookup k)) := by
  induction xs with
  | nil => simp [List.lookup]
  | cons x xs ih =>
    by_cases hk : k = x.1
    · simp [List.lookup, hk, Option.orElse]
    · have hk' : (k == x.1) = false := by simpa using hk
      simp [List.lookup, hk', ih]

theorem lookup_eq_none_of_lt (xs : List (Nat × Nat × Nat)) (k : Nat)
    (h : ∀ e ∈ xs, k < e.1) : xs.lookup k = none := by
  induction xs with
  | nil => simp [List.lookup]
  | cons x xs ih =>
    have hx : k < x.1 := h x (by simp)
    have hk : (k == x.1) = false := by
      simp only [beq_eq_false_iff_ne, ne_eq]
      omega
    simp only [List.lookup, hk]
    exact ih (fun e he => h e (by simp [he]))

theorem lookup_lineEntries (l : List Char) (L P C o : Nat) :
    (lineEntries L P C l).lookup (P + o) =
      if o < l.length then some (L, C + o) else none := by
  induction l generalizing P C o with
  | nil => simp [lineEntries, List.lookup]
  | cons c cs ih =>
    cases o with
    | zero => simp [lineEntries, List.lookup]
    | succ o =>
      have h2 : P + (o + 1) = (P + 1) + o := by omega
      have hk : ((P + 1) + o == P) = false := by
        simp only [beq_eq_false_iff_ne, ne_eq]
        omega
      simp only [lineEntries, List.lookup, h2, hk, ih, List.length_cons]
      have hc : C + 1 + o = C + (o + 1) := by omega
      by_cases ho : o < cs.length
      · rw [if_pos ho, if_pos (by omega), hc]
      · rw [if_neg ho, if_neg (by omega)]

theorem lookup_split_eq_refIndex (content : List Char) :
    ∀ (L P C o : Nat),
      (lineEntries L P C (firstLine content) ++
        indexEntriesAux (L + 1) (P + (firstLine content).length + 1)
          (restLines content)).lookup (P + o) =
      refIndex L C content o := by
  induction content with
  | nil =>
    intro L P C o
    simp [firstLine, restLines, lineEntries, indexEntriesAux, List.lookup, refIndex]
  | cons ch cs ih =>
    intro L P C o
    by_cases hch : ch = '\n'
    · subst hch
      simp only [firstLine, restLines, if_pos rfl, lineEntries, List.length_nil,
        List.nil_append, Nat.add_zero]
      cases o with
      | zero =>
        rw [refIndex]
        simp only [if_pos rfl, if_pos rfl]
        exact lookup_eq_none_of_lt _ _ (fun e he => by
          have := indexEntriesAux_key_ge he
          omega)
      | succ o1 =>
        rw [refIndex]
        simp only [Nat.succ_ne_zero, if_false, if_pos rfl]
        rw [pySplitLines_eq cs]
        simp only [indexEntriesAux]
        have hkey : P + (o1 + 1) = (P + 1) + o1 := by omega
        rw [hkey]
        have := ih (L + 1) (P + 1) 1 o1
        simpa using this
    · simp only [firstLine, restLines, if_neg hch, lineEntries, List.length_cons]
      cases o with
      | zero =>
        rw [refIndex]
        simp [List.lookup, hch]
      | succ o1 =>
        rw [refIndex]
        simp only [Nat.succ_ne_zero, if_false, if_neg hch]
        have hkey : ((P + (o1 + 1)) == P) = false := by
          simp only [beq_eq_false_iff_ne, ne_eq]
          omega
        simp only [List.cons_append, List.lookup, hkey]
        have hkey2 : P + (o1 + 1) = (P + 1) + o1 := by omega
        have hlen : P + ((firstLine cs).length + 1) + 1 =
            (P + 1) + (firstLine cs).length + 1 := by omega
        rw [hkey2, hlen]
        exact ih L (P + 1) (C + 1) o1

/-- The dictionary lookup agrees with the clean character-by-character walk. -/
theorem char_to_line_col_eq_refIndex (content : List Char) (o : Nat) :
    char_to_line_col content o = refIndex 1 1 content o := by
  have h := lookup_split_eq_refIndex content 1 0 1 o
  rw [char_to_line_col, pySplitLines_eq content]
  simpa [indexEntriesAux] using h

theorem refIndex_isSome (content : List Char) :
    ∀ (L C o : Nat),
      (refIndex L C content o).isSome = true ↔
        (o < content.length ∧ content.get? o ≠ some '\n') := by
  induction content with
  | nil =>
    intro L C o
    simp [refIndex]
  | cons ch cs ih =>
    intro L C o
    cases o with
    | zero =>
      by_cases hch : ch = '\n' <;> simp [refIndex, hch]
    | succ o1 =>
      by_cases hch : ch = '\n' <;>
        simpa [refIndex, hch, Nat.succ_lt_succ_iff] using ih _ _ o1

theorem pyRfind_neg_or_nonneg (s : List Char) : pyRfind s = -1 ∨ 0 ≤ pyRfind s := by
  induction s with
  | nil => left; rfl
  | cons c cs ih =>
    rw [pyRfind]
    rcases ih with h | h
    · rw [h]
      by_cases hc : c = '\n' <;> simp [hc]
    · right
      simp only [if_pos h]
      omega

theorem refIndex_spec (content : List Char) :
    ∀ (L C o : Nat) (l c : Nat), refIndex L C content o = some (l, c) →
      l = L + (content.take o).count '\n' ∧
      (c : Int) =
        (if pyRfind (content.take o) = -1 then (C : Int) + o
         else (o : Int) - pyRfind (content.take o)) := by
  induction content with
  | nil =>
    intro L C o l c h
    simp [refIndex] at h
  | cons ch cs ih =>
    intro L C o l c h
    cases o with
    | zero =>
      rw [refIndex] at h
      by_cases hch : ch = '\n'
      · simp [hch] at h
      · simp [hch] at h
        obtain ⟨h1, h2⟩ := h
        refine ⟨?_, ?_⟩
        · simp only [List.take_zero, List.count_nil]
          omega
        · simp only [List.take_zero]
          simp [pyRfind]
          omega
    | succ o1 =>
      by_cases hch : ch = '\n'
      · rw [refIndex] at h
        simp only [Nat.succ_ne_zero, if_false, if_pos hch, Nat.succ_sub_one] at h
        obtain ⟨hl, hc⟩ := ih (L + 1) 1 o1 l c h
        subst hch
        refine ⟨by simp only [List.take_succ_cons, List.count_cons]; simp; omega, ?_⟩
        rw [List.take_succ_cons]
        rcases pyRfind_neg_or_nonneg (cs.take o1) with hr | hr
        · have hstep : pyRfind ('\n' :: cs.take o1) = 0 := by
            rw [pyRfind, if_neg (by omega), if_pos rfl]
          rw [hstep, if_neg (by omega)]
          rw [if_pos hr] at hc
          push_cast at hc ⊢
          omega
        · have hstep : pyRfind ('\n' :: cs.take o1) = pyRfind (cs.take o1) + 1 := by
            rw [pyRfind, if_pos hr]
          rw [hstep, if_neg (by omega)]
          rw [if_neg (by omega)] at hc
          push_cast at hc ⊢
          omega
      · rw [refIndex] at h
        simp only [Nat.succ_ne_zero, if_false, if_neg hch, Nat.succ_sub_one] at h
        obtain ⟨hl, hc⟩ := ih L (C + 1) o1 l c h
        refine ⟨?_, ?_⟩
        · rw [List.take_succ_cons, List.count_cons]
          simp [hch, Ne.symm hch]
          omega
        · rw [List.take_succ_cons]
          rcases pyRfind_neg_or_nonneg (cs.take o1) with hr | hr
          · have hstep : pyRfind (ch :: cs.take o1) = -1 := by
              rw [pyRfind, if_neg (by omega), if_neg hch]
            rw [hstep, if_pos rfl]
            rw [if_pos hr] at hc
            push_cast at hc ⊢
            omega
          · have hstep : pyRfind (ch :: cs.take o1) = pyRfind (cs.take o1) + 1 := by
              rw [pyRfind, if_pos hr]
            rw [hstep, if_neg (by omega)]
            rw [if_neg (by omega)] at hc
            push_cast at hc ⊢
            omega

theorem pyRfind_lt_length (s : List Char) : pyRfind s < (s.length : Int) := by
  induction s with
  | nil => simp [pyRfind]
  | cons c cs ih =>
    rw [pyRfind]
    have hlen : ((c :: cs).length : Int) = (cs.length : Int) + 1 := by
      simp only [List.length_cons]
      push_cast
      omega
    rcases pyRfind_neg_or_nonneg cs with h | h
    · rw [if_neg (by omega), hlen]
      by_cases hc : c = '\n'
      · rw [if_pos hc]
        omega
      · rw [if_neg hc]
        omega
    · rw [if_pos h, hlen]
      omega

theorem pyRfind_append_singleton (s : List Char) (c : Char) :
    pyRfind (s ++ [c]) = if c = '\n' then (s.length : Int) else pyRfind s := by
  induction s with
  | nil =>
    by_cases hc : c = '\n' <;>
      simp [pyRfind, hc]
  | cons a s ih =>
    have hstep : pyRfind (a :: s ++ [c]) =
        if 0 ≤ pyRfind (s ++ [c]) then pyRfind (s ++ [c]) + 1
        else if a = '\n' then 0 else -1 := rfl
    rw [hstep, ih]
    by_cases hc : c = '\n'
    · rw [if_pos hc, if_pos hc, if_pos (Int.natCast_nonneg s.length)]
      simp only [List.length_cons]
      push_cast
      omega
    · rw [if_neg hc, if_neg hc]
      have hstep2 : pyRfind (a :: s) =
          if 0 ≤ pyRfind s then pyRfind s + 1
          else if a = '\n' then 0 else -1 := rfl
      rw [hstep2]

theorem newlinesBefore_eq (content : List Char) (o : Nat) :
    newlinesBefore content o = (content.take o).count '\n' := by
  induction o with
  | zero => simp [newlinesBefore]
  | succ o ih =>
    rw [newlinesBefore, List.range_succ, List.filter_append, List.length_append,
      List.take_succ, List.count_append]
    rw [newlinesBefore] at ih
    rw [ih]
    cases hg : content[o]? with
    | none => simp [hg]
    | some ch =>
      by_cases hch : ch = '\n' <;> simp [hg, hch, List.count_cons]

theorem filter_range_succ_pos (content : List Char) (o : Nat)
    (hg : content[o]? = some '\n') :
    (List.range (o + 1)).filter (fun i => decide (content[i]? = some '\n')) =
      (List.range o).filter (fun i => decide (content[i]? = some '\n')) ++ [o] := by
  rw [List.range_succ, List.filter_append]
  congr 1
  simp [hg]

theorem filter_range_succ_neg (content : List Char) (o : Nat)
    (hg : content[o]? ≠ some '\n') :
    (List.range (o + 1)).filter (fun i => decide (content[i]? = some '\n')) =
      (List.range o).filter (fun i => decide (content[i]? = some '\n')) := by
  rw [List.range_succ, List.filter_append]
  have : (List.filter (fun i => decide (content[i]? = some '\n')) [o]) = [] := by
    simp [hg]
  rw [this, List.append_nil]

theorem lastNewlineBefore_lt (content : List Char) (o : Nat) :
    lastNewlineBefore content o < (o : Int) := by
  induction o with
  | zero => simp [lastNewlineBefore]
  | succ o ih =>
    by_cases hg : content[o]? = some '\n'
    · rw [lastNewlineBefore, filter_range_succ_pos content o hg,
        List.getLast?_concat]
      push_cast
      omega
    · rw [lastNewlineBefore, filter_range_succ_neg content o hg]
      rw [lastNewlineBefore] at ih
      have : ((o : Int)) < ((o + 1 : Nat) : Int) := by push_cast; omega
      omega

theorem lastNewlineBefore_eq (content : List Char) (o : Nat) :
    lastNewlineBefore content o = pyRfind (content.take o) := by
  induction o with
  | zero => simp [lastNewlineBefore, pyRfind]
  | succ o ih =>
    cases hg : content[o]? with
    | none =>
      have hlen : content.length ≤ o := by
        by_contra hlt
        push_neg at hlt
        rw [List.getElem?_eq_getElem hlt] at hg
        cases hg
      rw [lastNewlineBefore, filter_range_succ_neg content o (by simp [hg]),
        List.take_succ, hg, Option.toList_none, List.append_nil]
      rw [lastNewlineBefore] at ih
      exact ih
    | some ch =>
      have ho : o < content.length := by
        by_contra hlt
        push_neg at hlt
        rw [List.getElem?_eq_none hlt] at hg
        cases hg
      have hlen : (content.take o).length = o := by
        rw [List.length_take]
        omega
      by_cases hch : ch = '\n'
      · subst hch
        rw [lastNewlineBefore, filter_range_succ_pos content o hg,
          List.getLast?_concat, List.take_succ, hg, Option.toList_some,
          pyRfind_append_singleton, if_pos rfl, hlen]
      · rw [lastNewlineBefore, filter_range_succ_neg content o (by simp [hg, hch]),
          List.take_succ, hg, Option.toList_some,
          pyRfind_append_singleton, if_neg hch]
        rw [lastNewlineBefore] at ih
        exact ih

/-- For the real starting state `(L, C) = (1, 1)`, the two column formulas of
`refIndex_spec` collapse into one: `col = o - rfind`. -/
theorem refIndex_one_one (content : List Char) (o l c : Nat)
    (h : refIndex 1 1 content o = some (l, c)) :
    l = 1 + (content.take o).count '\n' ∧
    (c : Int) = (o : Int) - pyRfind (content.take o) := by
  obtain ⟨hl, hc⟩ := refIndex_spec content 1 1 o l c h
  refine ⟨by omega, ?_⟩
  rcases pyRfind_neg_or_nonneg (content.take o) with hr | hr
  · rw [if_pos hr] at hc
    rw [hr]
    push_cast at hc ⊢
    omega
  · rwa [if_neg (by omega)] at hc

/-- Shared helper: whenever the dictionary lookup succeeds, the fallback
recomputation produces exactly the same pair. -/
theorem fallback_of_lookup (content : List Char) (o : Nat) (l c : Nat)
    (h : char_to_line_col content o = some (l, c)) :
    fallbackPos content o = (l, (c : Int)) := by
  rw [char_to_line_col_eq_refIndex] at h
  obtain ⟨hl, hc⟩ := refIndex_one_one content o l c h
  have hl2 : (content.take o).count '\n' + 1 = l := by omega
  rw [fallbackPos, hl2, ← hc]

theorem recordPos_eq_fallback (content : List Char) (o : Nat) :
    recordPos content o = fallbackPos content o := by
  rw [recordPos]
  cases h : char_to_line_col content o with
  | none => rfl
  | some lc =>
    obtain ⟨l, c⟩ := lc
    exact (fallback_of_lookup content o l c h).symm

/-- C3 (counterexample): the claim says the index has an entry for every
offset below the length, including newline offsets; but for the content
`"a\nb"` the newline offset 1 is absent from the index even though
1 < 3 = length. -/
theorem C3_counterexample :
    char_to_line_col ['a', '\n', 'b'] 1 = none ∧
      1 < (['a', '\n', 'b'] : List Char).length := by
  constructor
  · rfl
  · decide

/-- C3 (amended): index construction always succeeds and the resulting
mapping contains an entry for exactly those offsets `0 ≤ o < length` whose
character is not a newline; the offsets of line-terminator characters are
absent (the terminator only advances the running offset). -/
theorem C3_index_domain (content : List Char) (o : Nat) :
    (char_to_line_col content o).isSome = true ↔
      (o < content.length ∧ content[o]? ≠ some '\n') := by
  rw [char_to_line_col_eq_refIndex]
  rw [refIndex_isSome content 1 1 o]
  rw [List.get?_eq_getElem?]

/-- C4: for every offset present in the index, the mapped line is 1 plus the
number of newlines strictly before the offset, and the mapped column is the
offset minus the offset of the nearest preceding newline (`-1` when there is
none); both are 1-based. -/
theorem C4_position_arithmetic (content : List Char) (o l c : Nat)
    (h : char_to_line_col content o = some (l, c)) :
    l = 1 + newlinesBefore content o ∧
    (c : Int) = (o : Int) - lastNewlineBefore content o := by
  rw [char_to_line_col_eq_refIndex] at h
  obtain ⟨hl, hc⟩ := refIndex_one_one content o l c h
  rw [newlinesBefore_eq, lastNewlineBefore_eq]
  exact ⟨hl, hc⟩

/-- C4 witness: at offset 2 of `"a\nb"` the index stores line 2 column 1,
matching the offset arithmetic. -/
theorem C4_witness :
    (2 : Nat) = 1 + newlinesBefore ['a', '\n', 'b'] 2 ∧
    ((1 : Nat) : Int) = (2 : Int) - lastNewlineBefore ['a', '\n', 'b'] 2 :=
  C4_position_arithmetic ['a', '\n', 'b'] 2 2 1 (by decide)

/-- C5: whenever the dictionary lookup succeeds, the fallback recomputation
(line = newline count of the prefix plus 1, column = offset minus
`rfind('\n')` of the prefix) yields exactly the same pair, so taking the
fallback branch never changes a reported position. -/
theorem C5_fallback_equivalence (content : List Char) (o l c : Nat)
    (h : char_to_line_col content o = some (l, c)) :
    fallbackPos content o = (l, (c : Int)) :=
  fallback_of_lookup content o l c h

/-- C5 witness: at offset 2 of `"a\nb"` the fallback recomputation returns
`(2, 1)`, the same pair the index stores. -/
theorem C5_witness : fallbackPos ['a', '\n', 'b'] 2 = (2, (1 : Int)) :=
  C5_fallback_equivalence ['a', '\n', 'b'] 2 2 1 (by decide)

theorem expandTemplate_map_lit (matched rep : List Char) :
    expandTemplate matched (rep.map TemplItem.lit) = rep := by
  induction rep with
  | nil => rfl
  | cons c cs ih => simp [expandTemplate, ih]

theorem parseTemplate_no_backslash (rep : List Char) (hb : '\\' ∉ rep) :
    parseTemplate rep = some (rep.map TemplItem.lit) := by
  induction rep with
  | nil => simp [parseTemplate]
  | cons c cs ih =>
    have hc : c ≠ '\\' := fun h => hb (h ▸ List.mem_cons_self c cs)
    have hcs : '\\' ∉ cs := fun h => hb (List.mem_cons_of_mem c h)
    rw [parseTemplate.eq_def]
    simp only []
    rw [if_neg hc, ih hcs]
    rfl

theorem isMatchAt_nil_pat (b : Bool) (s : List Char) : isMatchAt b [] s = true := by
  cases s <;> rfl

theorem isMatchAt_length {b : Bool} :
    ∀ {pat s : List Char}, isMatchAt b pat s = true → pat.length ≤ s.length := by
  intro pat
  induction pat with
  | nil => intro s _; simp
  | cons p ps ih =>
    intro s h
    cases s with
    | nil => simp [isMatchAt] at h
    | cons c rest =>
      simp only [isMatchAt, Bool.and_eq_true] at h
      simpa [List.length_cons] using ih h.2

theorem isMatchAt_true_take :
    ∀ {pat s : List Char}, isMatchAt true pat s = true → s.take pat.length = pat := by
  intro pat
  induction pat with
  | nil => intro s _; simp
  | cons p ps ih =>
    intro s h
    cases s with
    | nil => simp [isMatchAt] at h
    | cons c rest =>
      have h2 : p = c ∧ isMatchAt true ps rest = true := by
        simpa [isMatchAt, charsMatch] using h
      obtain ⟨hpc, hrec⟩ := h2
      simp [List.take_succ_cons, ih hrec, hpc.symm]

theorem isMatchAt_lower :
    ∀ {f1 f2 s1 s2 : List Char}, f1.map Char.toLower = f2.map Char.toLower →
      s1.map Char.toLower = s2.map Char.toLower →
      isMatchAt false f1 s1 = isMatchAt false f2 s2 := by
  intro f1
  induction f1 with
  | nil =>
    intro f2 s1 s2 hf _
    have : f2 = [] := by simpa using hf.symm
    subst this
    rw [isMatchAt_nil_pat, isMatchAt_nil_pat]
  | cons p ps ih =>
    intro f2 s1 s2 hf hs
    cases f2 with
    | nil => simp at hf
    | cons q qs =>
      simp only [List.map_cons, List.cons.injEq] at hf
      obtain ⟨hpq, hf2⟩ := hf
      cases s1 with
      | nil =>
        have : s2 = [] := by simpa using hs.symm
        subst this
        rfl
      | cons c1 r1 =>
        cases s2 with
        | nil => simp at hs
        | cons c2 r2 =>
          simp only [List.map_cons, List.cons.injEq] at hs
          obtain ⟨hc12, hs2⟩ := hs
          simp only [isMatchAt, charsMatch, if_neg (by simp : ¬ false = true)]
          rw [hpq, hc12, ih hf2 hs2]

theorem charsMatch_true_eq (p c : Char) : charsMatch true p c = (p == c) := by
  simp [charsMatch]

theorem charsMatch_false_eq (p c : Char) :
    charsMatch false p c = (p.toLower == c.toLower) := by
  simp [charsMatch]

theorem specMatchAt_true_eq (find s : List Char) :
    specMatchAt true find s = decide (s.take find.length = find) := by
  simp [specMatchAt]

theorem specMatchAt_false_eq (find s : List Char) :
    specMatchAt false find s =
      decide ((s.take find.length).map Char.toLower = find.map Char.toLower) := by
  simp [specMatchAt]

theorem isMatchAt_eq_spec (b : Bool) :
    ∀ (pat s : List Char), isMatchAt b pat s = specMatchAt b pat s := by
  intro pat
  induction pat with
  | nil =>
    intro s
    rw [isMatchAt_nil_pat]
    cases b <;> simp [specMatchAt]
  | cons p ps ih =>
    intro s
    cases s with
    | nil =>
      cases b <;> simp [isMatchAt, specMatchAt]
    | cons c rest =>
      have hstep : isMatchAt b (p :: ps) (c :: rest) =
          (charsMatch b p c && isMatchAt b ps rest) := rfl
      rw [hstep, ih rest]
      cases b with
      | false =>
        rw [charsMatch_false_eq, specMatchAt_false_eq, specMatchAt_false_eq,
          List.length_cons, List.take_succ_cons, List.map_cons, List.map_cons]
        by_cases hpc : p.toLower = c.toLower
        · rw [(by simp [hpc] : (p.toLower == c.toLower) = true), Bool.true_and]
          apply (decide_eq_decide).mpr
          simp [hpc]
        · rw [(by simp [hpc] : (p.toLower == c.toLower) = false), Bool.false_and]
          have hne : ¬ (c.toLower :: (rest.take ps.length).map Char.toLower =
              p.toLower :: ps.map Char.toLower) := by
            simp only [List.cons.injEq, not_and]
            intro h1
            exact absurd h1.symm hpc
          rw [decide_eq_false hne]
      | true =>
        rw [charsMatch_true_eq, specMatchAt_true_eq, specMatchAt_true_eq,
          List.length_cons, List.take_succ_cons]
        by_cases hpc : p = c
        · rw [(by simp [hpc] : (p == c) = true), Bool.true_and]
          apply (decide_eq_decide).mpr
          simp [hpc]
        · rw [(by simp [hpc] : (p == c) = false), Bool.false_and]
          have hne : ¬ (c :: rest.take ps.length = p :: ps) := by
            simp only [List.cons.injEq, not_and]
            intro h1
            exact absurd h1.symm hpc
          rw [decide_eq_false hne]

theorem findMatchesAux_nil (b : Bool) (pat : List Char) (pos : Nat) :
    findMatchesAux b pat [] pos = if pat.isEmpty then [(pos, pos)] else [] := by
  rw [findMatchesAux.eq_def]

theorem findMatchesAux_cons_nil_pat (b : Bool) (c : Char) (rest : List Char) (pos : Nat) :
    findMatchesAux b [] (c :: rest) pos = (pos, pos) :: findMatchesAux b [] rest (pos + 1) := by
  rw [findMatchesAux.eq_def]

theorem findMatchesAux_cons_match (b : Bool) (p c : Char) (ps rest : List Char) (pos : Nat)
    (h : isMatchAt b (p :: ps) (c :: rest) = true) :
    findMatchesAux b (p :: ps) (c :: rest) pos =
      (pos, pos + (p :: ps).length) ::
        findMatchesAux b (p :: ps) (rest.drop ps.length) (pos + (p :: ps).length) := by
  rw [findMatchesAux.eq_def]
  simp only [h, if_true]

theorem findMatchesAux_cons_nomatch (b : Bool) (p c : Char) (ps rest : List Char) (pos : Nat)
    (h : isMatchAt b (p :: ps) (c :: rest) = false) :
    findMatchesAux b (p :: ps) (c :: rest) pos = findMatchesAux b (p :: ps) rest (pos + 1) := by
  rw [findMatchesAux.eq_def]
  simp only [h, Bool.false_eq_true, if_false]

theorem substAux_nil (b : Bool) (items : List TemplItem) (pat : List Char) :
    substAux b items pat [] = if pat.isEmpty then expandTemplate [] items else [] := by
  rw [substAux.eq_def]

theorem substAux_cons_nil_pat (b : Bool) (items : List TemplItem) (c : Char) (rest : List Char) :
    substAux b items [] (c :: rest) =
      expandTemplate [] items ++ c :: substAux b items [] rest := by
  rw [substAux.eq_def]

theorem substAux_cons_match (b : Bool) (items : List TemplItem) (p c : Char)
    (ps rest : List Char) (h : isMatchAt b (p :: ps) (c :: rest) = true) :
    substAux b items (p :: ps) (c :: rest) =
      expandTemplate ((c :: rest).take (p :: ps).length) items ++
        substAux b items (p :: ps) (rest.drop ps.length) := by
  rw [substAux.eq_def]
  simp only [h, if_true]

theorem substAux_cons_nomatch (b : Bool) (items : List TemplItem) (p c : Char)
    (ps rest : List Char) (h : isMatchAt b (p :: ps) (c :: rest) = false) :
    substAux b items (p :: ps) (c :: rest) = c :: substAux b items (p :: ps) rest := by
  rw [substAux.eq_def]
  simp only [h, Bool.false_eq_true, if_false]

theorem specLiteralReplace_nil (b : Bool) (find rep : List Char) :
    specLiteralReplace b find rep [] = if find.isEmpty then rep else [] := by
  rw [specLiteralReplace.eq_def]

theorem specLiteralReplace_cons_nil_find (b : Bool) (rep : List Char) (c : Char)
    (rest : List Char) :
    specLiteralReplace b [] rep (c :: rest) =
      rep ++ c :: specLiteralReplace b [] rep rest := by
  rw [specLiteralReplace.eq_def]

theorem specLiteralReplace_cons_match (b : Bool) (rep : List Char) (p c : Char)
    (ps rest : List Char) (h : specMatchAt b (p :: ps) (c :: rest) = true) :
    specLiteralReplace b (p :: ps) rep (c :: rest) =
      rep ++ specLiteralReplace b (p :: ps) rep ((c :: rest).drop (p :: ps).length) := by
  rw [specLiteralReplace.eq_def]
  simp only [h, if_true]

theorem specLiteralReplace_cons_nomatch (b : Bool) (rep : List Char) (p c : Char)
    (ps rest : List Char) (h : specMatchAt b (p :: ps) (c :: rest) = false) :
    specLiteralReplace b (p :: ps) rep (c :: rest) =
      c :: specLiteralReplace b (p :: ps) rep rest := by
  rw [specLiteralReplace.eq_def]
  simp only [h, Bool.false_eq_true, if_false]

theorem findMatchesAux_mem :
    ∀ (n : Nat) (b : Bool) (pat s : List Char) (pos a e : Nat),
      s.length ≤ n → (a, e) ∈ findMatchesAux b pat s pos →
      pos ≤ a ∧ a ≤ pos + s.length ∧ e = a + pat.length ∧
        isMatchAt b pat (s.drop (a - pos)) = true := by
  intro n
  induction n with
  | zero =>
    intro b pat s pos a e hn hm
    have hs : s = [] := List.length_eq_zero.mp (Nat.le_zero.mp hn)
    subst hs
    rw [findMatchesAux_nil] at hm
    by_cases hp : pat.isEmpty
    · rw [if_pos hp, List.mem_singleton, Prod.mk.injEq] at hm
      obtain ⟨ha, he⟩ := hm
      have hpe : pat = [] := List.isEmpty_iff.mp hp
      subst hpe
      subst ha
      refine ⟨by omega, by simp, by simp [he], by rw [isMatchAt_nil_pat]⟩
    · rw [if_neg hp] at hm
      simp at hm
  | succ n ih =>
    intro b pat s pos a e hn hm
    cases s with
    | nil =>
      rw [findMatchesAux_nil] at hm
      by_cases hp : pat.isEmpty
      · rw [if_pos hp, List.mem_singleton, Prod.mk.injEq] at hm
        obtain ⟨ha, he⟩ := hm
        have hpe : pat = [] := List.isEmpty_iff.mp hp
        subst hpe
        subst ha
        refine ⟨by omega, by simp, by simp [he], by rw [isMatchAt_nil_pat]⟩
      · rw [if_neg hp] at hm
        simp at hm
    | cons c rest =>
      have hrest : rest.length ≤ n := by
        simp only [List.length_cons] at hn
        omega
      cases pat with
      | nil =>
        rw [findMatchesAux_cons_nil_pat, List.mem_cons] at hm
        rcases hm with hm | hm
        · rw [Prod.mk.injEq] at hm
          obtain ⟨ha, he⟩ := hm
          subst ha
          refine ⟨by omega, by omega, by simp [he], by rw [isMatchAt_nil_pat]⟩
        · obtain ⟨h1, h2, h3, _⟩ := ih b [] rest (pos + 1) a e hrest hm
          refine ⟨by omega, by simp only [List.length_cons]; omega, by simpa using h3,
            by rw [isMatchAt_nil_pat]⟩
      | cons p ps =>
        by_cases hmt : isMatchAt b (p :: ps) (c :: rest) = true
        · rw [findMatchesAux_cons_match b p c ps rest pos hmt, List.mem_cons] at hm
          rcases hm with hm | hm
          · rw [Prod.mk.injEq] at hm
            obtain ⟨ha, he⟩ := hm
            subst ha
            refine ⟨by omega, by omega, by omega, ?_⟩
            have hz : a - a = 0 := by omega
            rw [hz, List.drop_zero]
            exact hmt
          · have hld : (List.drop ps.length rest).length = rest.length - ps.length :=
              List.length_drop _ _
            have hlen := isMatchAt_length hmt
            rw [List.length_cons, List.length_cons] at hlen
            have hdlen : (rest.drop ps.length).length ≤ n := by omega
            obtain ⟨h1, h2, h3, h4⟩ :=
              ih b (p :: ps) (rest.drop ps.length) (pos + (p :: ps).length) a e hdlen hm
            have hplen : (p :: ps).length = ps.length + 1 := List.length_cons p ps
            have hclen : (c :: rest).length = rest.length + 1 := List.length_cons c rest
            refine ⟨by omega, by omega, h3, ?_⟩
            rw [List.drop_drop] at h4
            have hsplit : (c :: rest).drop (a - pos) = rest.drop (a - pos - 1) := by
              obtain ⟨k, hk⟩ : ∃ k, a - pos = k + 1 := ⟨a - pos - 1, by omega⟩
              rw [hk, List.drop_succ_cons]
              simp
            rw [hsplit]
            have h6 : a - pos - 1 = ps.length + (a - (pos + (p :: ps).length)) := by omega
            rw [h6]
            exact h4
        · rw [Bool.not_eq_true] at hmt
          rw [findMatchesAux_cons_nomatch b p c ps rest pos hmt] at hm
          obtain ⟨h1, h2, h3, h4⟩ := ih b (p :: ps) rest (pos + 1) a e hrest hm
          have hclen : (c :: rest).length = rest.length + 1 := List.length_cons c rest
          refine ⟨by omega, by omega, h3, ?_⟩
          have hsplit : (c :: rest).drop (a - pos) = rest.drop (a - pos - 1) := by
            obtain ⟨k, hk⟩ : ∃ k, a - pos = k + 1 := ⟨a - pos - 1, by omega⟩
            rw [hk, List.drop_succ_cons]
            simp
          rw [hsplit]
          have h6 : a - pos - 1 = a - (pos + 1) := by omega
          rw [h6]
          exact h4

theorem findMatchesAux_pairwise :
    ∀ (n : Nat) (b : Bool) (pat s : List Char) (pos : Nat), s.length ≤ n →
      List.Pairwise (fun m1 m2 => m1.1 < m2.1) (findMatchesAux b pat s pos) := by
  intro n
  induction n with
  | zero =>
    intro b pat s pos hn
    have hs : s = [] := List.length_eq_zero.mp (Nat.le_zero.mp hn)
    subst hs
    rw [findMatchesAux_nil]
    by_cases hp : pat.isEmpty
    · rw [if_pos hp]
      exact List.pairwise_singleton _ _
    · rw [if_neg hp]
      exact List.Pairwise.nil
  | succ n ih =>
    intro b pat s pos hn
    cases s with
    | nil =>
      rw [findMatchesAux_nil]
      by_cases hp : pat.isEmpty
      · rw [if_pos hp]
        exact List.pairwise_singleton _ _
      · rw [if_neg hp]
        exact List.Pairwise.nil
    | cons c rest =>
      have hrest : rest.length ≤ n := by
        simp only [List.length_cons] at hn
        omega
      cases pat with
      | nil =>
        rw [findMatchesAux_cons_nil_pat]
        refine List.Pairwise.cons ?_ (ih b [] rest (pos + 1) hrest)
        intro y hy
        obtain ⟨h1, _, _, _⟩ := findMatchesAux_mem n b [] rest (pos + 1) y.1 y.2 hrest
          (by simpa using hy)
        simp only
        omega
      | cons p ps =>
        by_cases hmt : isMatchAt b (p :: ps) (c :: rest) = true
        · rw [findMatchesAux_cons_match b p c ps rest pos hmt]
          have hdlen : (rest.drop ps.length).length ≤ n := by
            have := List.length_drop ps.length rest
            omega
          refine List.Pairwise.cons ?_ (ih b (p :: ps) (rest.drop ps.length) _ hdlen)
          intro y hy
          obtain ⟨h1, _, _, _⟩ := findMatchesAux_mem n b (p :: ps) (rest.drop ps.length)
            (pos + (p :: ps).length) y.1 y.2 hdlen (by simpa using hy)
          simp only [List.length_cons] at h1 ⊢
          omega
        · rw [Bool.not_eq_true] at hmt
          rw [findMatchesAux_cons_nomatch b p c ps rest pos hmt]
          exact ih b (p :: ps) rest (pos + 1) hrest

theorem findMatchesAux_no_match :
    ∀ (n : Nat) (b : Bool) (pat s : List Char) (pos : Nat), s.length ≤ n →
      (∀ i, isMatchAt b pat (s.drop i) = false) →
      findMatchesAux b pat s pos = [] := by
  intro n
  induction n with
  | zero =>
    intro b pat s pos hn hno
    have hs : s = [] := List.length_eq_zero.mp (Nat.le_zero.mp hn)
    subst hs
    rw [findMatchesAux_nil, if_neg]
    intro hp
    have hpe : pat = [] := List.isEmpty_iff.mp hp
    subst hpe
    have := hno 0
    rw [isMatchAt_nil_pat] at this
    cases this
  | succ n ih =>
    intro b pat s pos hn hno
    cases s with
    | nil =>
      rw [findMatchesAux_nil, if_neg]
      intro hp
      have hpe : pat = [] := List.isEmpty_iff.mp hp
      subst hpe
      have := hno 0
      rw [isMatchAt_nil_pat] at this
      cases this
    | cons c rest =>
      have hrest : rest.length ≤ n := by
        simp only [List.length_cons] at hn
        omega
      cases pat with
      | nil =>
        have := hno 0
        rw [List.drop_zero, isMatchAt_nil_pat] at this
        cases this
      | cons p ps =>
        have h0 := hno 0
        rw [List.drop_zero] at h0
        rw [findMatchesAux_cons_nomatch b p c ps rest pos h0]
        refine ih b (p :: ps) rest (pos + 1) hrest ?_
        intro i
        have := hno (i + 1)
        rwa [List.drop_succ_cons] at this

theorem substAux_no_match :
    ∀ (n : Nat) (b : Bool) (items : List TemplItem) (pat s : List Char), s.length ≤ n →
      (∀ i, isMatchAt b pat (s.drop i) = false) →
      substAux b items pat s = s := by
  intro n
  induction n with
  | zero =>
    intro b items pat s hn hno
    have hs : s = [] := List.length_eq_zero.mp (Nat.le_zero.mp hn)
    subst hs
    rw [substAux_nil, if_neg]
    intro hp
    have hpe : pat = [] := List.isEmpty_iff.mp hp
    subst hpe
    have := hno 0
    rw [isMatchAt_nil_pat] at this
    cases this
  | succ n ih =>
    intro b items pat s hn hno
    cases s with
    | nil =>
      rw [substAux_nil, if_neg]
      intro hp
      have hpe : pat = [] := List.isEmpty_iff.mp hp
      subst hpe
      have := hno 0
      rw [isMatchAt_nil_pat] at this
      cases this
    | cons c rest =>
      have hrest : rest.length ≤ n := by
        simp only [List.length_cons] at hn
        omega
      cases pat with
      | nil =>
        have := hno 0
        rw [List.drop_zero, isMatchAt_nil_pat] at this
        cases this
      | cons p ps =>
        have h0 := hno 0
        rw [List.drop_zero] at h0
        rw [substAux_cons_nomatch b items p c ps rest h0]
        congr 1
        refine ih b items (p :: ps) rest hrest ?_
        intro i
        have := hno (i + 1)
        rwa [List.drop_succ_cons] at this

theorem containsMatch_false_forall (b : Bool) (pat s : List Char)
    (h : containsMatch b pat s = false) :
    ∀ i, isMatchAt b pat (s.drop i) = false := by
  rw [containsMatch, List.any_eq_false] at h
  intro i
  by_cases hi : i ≤ s.length
  · exact Bool.not_eq_true _ |>.mp (h i (List.mem_range.mpr (by omega)))
  · have h1 := Bool.not_eq_true _ |>.mp (h s.length (List.mem_range.mpr (by omega)))
    rw [List.drop_length] at h1
    rw [List.drop_eq_nil_of_le (by omega)]
    exact h1

theorem findMatchesAux_nil_pat_length (b : Bool) :
    ∀ (s : List Char) (pos : Nat), (findMatchesAux b [] s pos).length = s.length + 1 := by
  intro s
  induction s with
  | nil =>
    intro pos
    rw [findMatchesAux_nil]
    rfl
  | cons c rest ih =>
    intro pos
    rw [findMatchesAux_cons_nil_pat, List.length_cons, ih (pos + 1), List.length_cons]

theorem substAux_nil_pat_interleave (b : Bool) (rep : List Char) :
    ∀ s : List Char, substAux b (rep.map TemplItem.lit) [] s = interleave rep s := by
  intro s
  induction s with
  | nil =>
    rw [substAux_nil]
    simp [expandTemplate_map_lit, interleave]
  | cons c rest ih =>
    rw [substAux_cons_nil_pat, expandTemplate_map_lit, ih]
    rfl

theorem substAux_eq_specLiteralReplace :
    ∀ (n : Nat) (b : Bool) (rep pat s : List Char), s.length ≤ n →
      substAux b (rep.map TemplItem.lit) pat s = specLiteralReplace b pat rep s := by
  intro n
  induction n with
  | zero =>
    intro b rep pat s hn
    have hs : s = [] := List.length_eq_zero.mp (Nat.le_zero.mp hn)
    subst hs
    rw [substAux_nil, specLiteralReplace_nil]
    by_cases hp : pat.isEmpty
    · rw [if_pos hp, if_pos hp, expandTemplate_map_lit]
    · rw [if_neg hp, if_neg hp]
  | succ n ih =>
    intro b rep pat s hn
    cases s with
    | nil =>
      rw [substAux_nil, specLiteralReplace_nil]
      by_cases hp : pat.isEmpty
      · rw [if_pos hp, if_pos hp, expandTemplate_map_lit]
      · rw [if_neg hp, if_neg hp]
    | cons c rest =>
      have hrest : rest.length ≤ n := by
        simp only [List.length_cons] at hn
        omega
      cases pat with
      | nil =>
        rw [substAux_cons_nil_pat, specLiteralReplace_cons_nil_find,
          expandTemplate_map_lit, ih b rep [] rest hrest]
      | cons p ps =>
        by_cases hmt : isMatchAt b (p :: ps) (c :: rest) = true
        · have hsm : specMatchAt b (p :: ps) (c :: rest) = true := by
            rw [← isMatchAt_eq_spec]
            exact hmt
          rw [substAux_cons_match b _ p c ps rest hmt,
            specLiteralReplace_cons_match b rep p c ps rest hsm,
            expandTemplate_map_lit]
          congr 1
          have hdrop : (c :: rest).drop (p :: ps).length = rest.drop ps.length := by
            rw [List.length_cons, List.drop_succ_cons]
          rw [hdrop]
          refine ih b rep (p :: ps) (rest.drop ps.length) ?_
          have := List.length_drop ps.length rest
          omega
        · rw [Bool.not_eq_true] at hmt
          have hsm : specMatchAt b (p :: ps) (c :: rest) = false := by
            rw [← isMatchAt_eq_spec]
            exact hmt
          rw [substAux_cons_nomatch b _ p c ps rest hmt,
            specLiteralReplace_cons_nomatch b rep p c ps rest hsm]
          congr 1
          exact ih b rep (p :: ps) rest hrest

theorem replace_fields (content find rep : List Char) (b dry : Bool) (out : ReplaceOutcome)
    (h : replace_proper_noun content find rep b dry = some out) :
    ∃ items, parseTemplate rep = some items ∧
      out.replacements = (findMatchesAux b find content 0).map (fun m =>
        ((recordPos content m.1).1, (recordPos content m.1).2, contextOf content m.1 m.2)) ∧
      out.count = out.replacements.length ∧
      out.modified = substAux b items find content ∧
      out.written = if dry = false ∧ 0 < out.count then some out.modified else none := by
  rw [replace_proper_noun] at h
  cases hp : parseTemplate rep with
  | none =>
    rw [hp] at h
    cases h
  | some items =>
    rw [hp] at h
    simp only [Option.some.injEq] at h
    subst h
    exact ⟨items, rfl, rfl, rfl, rfl, rfl⟩

/-- C1 (counterexample): the replace text is not inserted character for
character: with find text `"x"`, replace text `"\\n"` (backslash then `n`)
and content `"x"`, the code produces a newline character, not the two
characters backslash-`n` that literal character-for-character insertion
would give. -/
theorem C1_counterexample :
    (replace_proper_noun ['x'] ['x'] ['\\', 'n'] false true).map ReplaceOutcome.modified
        = some ['\n'] ∧
    specLiteralReplace false ['x'] ['\\', 'n'] ['x'] = ['\\', 'n'] ∧
    (['\n'] : List Char) ≠ ['\\', 'n'] := by
  refine ⟨?_, ?_, by decide⟩
  · simp [replace_proper_noun, parseTemplate, escStep, substAux, expandTemplate, isMatchAt,
      charsMatch]
  · simp [specLiteralReplace, specMatchAt]

/-- C1 (amended): the modified content equals the content with every
leftmost non-overlapping literal occurrence of the find text (matched
case-insensitively unless the case-sensitive flag is set, with no regex
interpretation of the find text) replaced by the `re.sub` template
expansion of the replace text; when the replace text contains no
backslash, that expansion inserts the replace text character for
character. -/
theorem C1_literal_replacement (b : Bool) (find rep content : List Char) (dry : Bool)
    (hb : '\\' ∉ rep) :
    (replace_proper_noun content find rep b dry).map ReplaceOutcome.modified =
      some (specLiteralReplace b find rep content) := by
  rw [replace_proper_noun, parseTemplate_no_backslash rep hb]
  simp only [Option.map_some]
  exact congrArg some
    (substAux_eq_specLiteralReplace content.length b rep find content (le_refl _))

/-- C1 witness: replacing `"Paris"` by `"London"` (no backslash) in the
spec's example sentence matches the literal-replacement reading. -/
theorem C1_witness :
    ('\\' ∉ "London".toList) ∧
    (replace_proper_noun "Obama visited Paris in 2009.".toList "Paris".toList
        "London".toList false false).map ReplaceOutcome.modified =
      some (specLiteralReplace false "Paris".toList "London".toList
        "Obama visited Paris in 2009.".toList) :=
  ⟨by decide, C1_literal_replacement false "Paris".toList "London".toList
    "Obama visited Paris in 2009.".toList false (by decide)⟩

/-- C2: the file is overwritten (with exactly the computed modified content)
precisely when the dry-run flag is off and at least one match exists;
otherwise its content is untouched. -/
theorem C2_write_frame (content find rep : List Char) (b dry : Bool) (out : ReplaceOutcome)
    (h : replace_proper_noun content find rep b dry = some out) :
    ((dry = true ∨ out.count = 0) → fileAfter out.written content = content) ∧
    (dry = false → 0 < out.count → fileAfter out.written content = out.modified) := by
  obtain ⟨items, _, _, _, _, hw⟩ := replace_fields content find rep b dry out h
  constructor
  · intro hd
    have hnone : out.written = none := by
      rw [hw, if_neg]
      rintro ⟨h1, h2⟩
      rcases hd with hd | hd
      · rw [hd] at h1
        cases h1
      · omega
    rw [hnone]
    rfl
  · intro hd hc
    rw [hw, if_pos ⟨hd, hc⟩]
    rfl

/-- C2 witness: a dry run on `"Paris"` leaves the file content unchanged. -/
theorem C2_witness :
    fileAfter (ReplaceOutcome.mk 1 [(1, 1, "Paris".toList)] "London".toList none).written
      "Paris".toList = "Paris".toList :=
  (C2_write_frame "Paris".toList "Paris".toList "London".toList false true
    ⟨1, [(1, 1, "Paris".toList)], "London".toList, none⟩
    (by simp [replace_proper_noun, parseTemplate, escStep, findMatchesAux, isMatchAt,
      charsMatch, substAux, expandTemplate, recordPos, char_to_line_col, pySplitLines,
      indexEntriesAux, lineEntries, contextOf, List.lookup])).1 (Or.inl rfl)

/-- C6: if the find text no longer occurs in the modified content under the
active mode, running the same replacement again yields zero matches,
returns the content unchanged, and does not write. -/
theorem C6_idempotent (b : Bool) (find rep content : List Char) (dry1 dry2 : Bool)
    (out : ReplaceOutcome)
    (h : replace_proper_noun content find rep b dry1 = some out)
    (hno : containsMatch b find out.modified = false) :
    (replace_proper_noun out.modified find rep b dry2).map ReplaceOutcome.count = some 0 ∧
    (replace_proper_noun out.modified find rep b dry2).map ReplaceOutcome.modified =
      some out.modified ∧
    (replace_proper_noun out.modified find rep b dry2).map ReplaceOutcome.written =
      some none := by
  obtain ⟨items, hp, _, _, _, _⟩ := replace_fields content find rep b dry1 out h
  have hforall := containsMatch_false_forall b find out.modified hno
  have hms := findMatchesAux_no_match out.modified.length b find out.modified 0
    (le_refl _) hforall
  have hsub := substAux_no_match out.modified.length b items find out.modified
    (le_refl _) hforall
  rw [replace_proper_noun, hp]
  simp only [hms, hsub, List.map_nil, List.length_nil, Option.map_some]
  refine ⟨rfl, rfl, ?_⟩
  simp

/-- C6 witness: after replacing `"Paris"` by `"London"`, a second run on
`"London"` finds nothing and changes nothing. -/
theorem C6_witness :
    (replace_proper_noun "London".toList "Paris".toList "London".toList false false).map
        ReplaceOutcome.count = some 0 ∧
    (replace_proper_noun "London".toList "Paris".toList "London".toList false false).map
        ReplaceOutcome.modified = some "London".toList ∧
    (replace_proper_noun "London".toList "Paris".toList "London".toList false false).map
        ReplaceOutcome.written = some none :=
  C6_idempotent false "Paris".toList "London".toList "Paris".toList false false
    ⟨1, [(1, 1, "Paris".toList)], "London".toList, some "London".toList⟩
    (by simp [replace_proper_noun, parseTemplate, escStep, findMatchesAux, isMatchAt,
      charsMatch, substAux, expandTemplate, recordPos, char_to_line_col, pySplitLines,
      indexEntriesAux, lineEntries, contextOf, List.lookup])
    (by decide)

/-- C9 (counterexample): with the empty find text the match count is
`length + 1`, but the inserted text is the template expansion of the
replace text, not the replace text itself: replace text `"\\n"` inserts
newlines, not backslash-`n`. -/
theorem C9_counterexample :
    (replace_proper_noun ['a'] [] ['\\', 'n'] false false).map ReplaceOutcome.modified =
      some ['\n', 'a', '\n'] ∧
    interleave ['\\', 'n'] ['a'] = ['\\', 'n', 'a', '\\', 'n'] ∧
    (['\n', 'a', '\n'] : List Char) ≠ ['\\', 'n', 'a', '\\', 'n'] := by
  refine ⟨?_, by decide, by decide⟩
  simp [replace_proper_noun, parseTemplate, escStep, substAux, expandTemplate]

/-- C9 (amended): with the empty find text the replacer reports
`length + 1` matches (one per inter-character position and one at the end);
the modified content is the template expansion of the replace text — the
replace text itself whenever it contains no backslash — inserted at every
one of those positions; and a non-dry-run invocation overwrites the file
(the match count `length + 1` is always positive, so this holds for every
file, non-empty or not). -/
theorem C9_empty_find (rep content : List Char) (b dry : Bool) (out : ReplaceOutcome)
    (hb : '\\' ∉ rep)
    (h : replace_proper_noun content [] rep b dry = some out) :
    out.count = content.length + 1 ∧
    out.modified = interleave rep content ∧
    (dry = false → out.written = some out.modified) := by
  obtain ⟨items, hp, hrecs, hcnt, hmod, hw⟩ := replace_fields content [] rep b dry out h
  rw [parseTemplate_no_backslash rep hb] at hp
  have hitems : items = rep.map TemplItem.lit := by
    injection hp with hp2
    exact hp2.symm
  subst hitems
  have hcount : out.count = content.length + 1 := by
    rw [hcnt, hrecs, List.length_map, findMatchesAux_nil_pat_length]
  refine ⟨hcount, ?_, ?_⟩
  · rw [hmod, substAux_nil_pat_interleave]
  · intro hd
    rw [hw, if_pos ⟨hd, by omega⟩]

/-- C9 witness: empty find text on content `"a"` with replace text `"X"`:
2 matches, modified content `"XaX"`, file written. -/
theorem C9_witness :
    (ReplaceOutcome.mk 2 [(1, 1, ['a']), (1, 2, ['a'])] ['X', 'a', 'X']
        (some ['X', 'a', 'X'])).count = (['a'] : List Char).length + 1 ∧
    (ReplaceOutcome.mk 2 [(1, 1, ['a']), (1, 2, ['a'])] ['X', 'a', 'X']
        (some ['X', 'a', 'X'])).modified = interleave ['X'] ['a'] ∧
    (false = false → (ReplaceOutcome.mk 2 [(1, 1, ['a']), (1, 2, ['a'])] ['X', 'a', 'X']
        (some ['X', 'a', 'X'])).written =
      some (ReplaceOutcome.mk 2 [(1, 1, ['a']), (1, 2, ['a'])] ['X', 'a', 'X']
        (some ['X', 'a', 'X'])).modified) :=
  C9_empty_find ['X'] ['a'] false false
    ⟨2, [(1, 1, ['a']), (1, 2, ['a'])], ['X', 'a', 'X'], some ['X', 'a', 'X']⟩
    (by decide)
    (by simp only [replace_proper_noun, parseTemplate, escStep, findMatchesAux, isMatchAt,
      charsMatch, substAux, expandTemplate, recordPos, char_to_line_col, pySplitLines,
      indexEntriesAux, lineEntries, contextOf, fallbackPos, pyRfind, List.lookup] <;> decide)

theorem findMatchesAux_lower :
    ∀ (n : Nat) (f1 f2 s1 s2 : List Char) (pos : Nat), s1.length ≤ n →
      f1.map Char.toLower = f2.map Char.toLower →
      s1.map Char.toLower = s2.map Char.toLower →
      findMatchesAux false f1 s1 pos = findMatchesAux false f2 s2 pos := by
  intro n
  induction n with
  | zero =>
    intro f1 f2 s1 s2 pos hn hf hs
    have hs1 : s1 = [] := List.length_eq_zero.mp (Nat.le_zero.mp hn)
    subst hs1
    have hs2 : s2 = [] := by simpa using hs.symm
    subst hs2
    have hflen : f1.length = f2.length := by
      have := congrArg List.length hf
      simpa [List.length_map] using this
    rw [findMatchesAux_nil, findMatchesAux_nil]
    by_cases he : f1.isEmpty
    · have hf1 : f1 = [] := List.isEmpty_iff.mp he
      subst hf1
      have hf2 : f2 = [] := by simpa using hf.symm
      subst hf2
      rfl
    · have he2 : ¬ f2.isEmpty = true := by
        intro hc
        have hc2 : f2 = [] := List.isEmpty_iff.mp hc
        subst hc2
        have hf1 : f1 = [] := by simpa using hf
        exact he (by simp [hf1])
      rw [if_neg he, if_neg he2]
  | succ n ih =>
    intro f1 f2 s1 s2 pos hn hf hs
    have hflen : f1.length = f2.length := by
      have := congrArg List.length hf
      simpa [List.length_map] using this
    cases s1 with
    | nil =>
      have hs2 : s2 = [] := by simpa using hs.symm
      subst hs2
      rw [findMatchesAux_nil, findMatchesAux_nil]
      by_cases he : f1.isEmpty
      · have hf1 : f1 = [] := List.isEmpty_iff.mp he
        subst hf1
        have hf2e : f2 = [] := by simpa using hf.symm
        subst hf2e
        rfl
      · have he2 : ¬ f2.isEmpty = true := by
          intro hc
          have hc2 : f2 = [] := List.isEmpty_iff.mp hc
          subst hc2
          have hf1 : f1 = [] := by simpa using hf
          exact he (by simp [hf1])
        rw [if_neg he, if_neg he2]
    | cons c1 r1 =>
      cases s2 with
      | nil => simp at hs
      | cons c2 r2 =>
        have hr1 : r1.length ≤ n := by
          simp only [List.length_cons] at hn
          omega
        simp only [List.map_cons, List.cons.injEq] at hs
        obtain ⟨hc12, hs2⟩ := hs
        cases f1 with
        | nil =>
          have hf2 : f2 = [] := by simpa using hf.symm
          subst hf2
          rw [findMatchesAux_cons_nil_pat, findMatchesAux_cons_nil_pat]
          rw [ih [] [] r1 r2 (pos + 1) hr1 rfl hs2]
        | cons p ps =>
          cases f2 with
          | nil => simp at hf
          | cons q qs =>
            simp only [List.map_cons, List.cons.injEq] at hf
            obtain ⟨hpq, hf2⟩ := hf
            have hqlen : ps.length = qs.length := by
              have := congrArg List.length hf2
              simpa [List.length_map] using this
            have hmeq : isMatchAt false (p :: ps) (c1 :: r1) =
                isMatchAt false (q :: qs) (c2 :: r2) := by
              apply isMatchAt_lower
              · simp [hpq, hf2]
              · simp [hc12, hs2]
            by_cases hm : isMatchAt false (p :: ps) (c1 :: r1) = true
            · rw [findMatchesAux_cons_match false p c1 ps r1 pos hm,
                findMatchesAux_cons_match false q c2 qs r2 pos (by rw [← hmeq]; exact hm)]
              have hlen2 : (p :: ps).length = (q :: qs).length := by
                simp [List.length_cons, hqlen]
              rw [hlen2, hqlen]
              congr 1
              refine ih (p :: ps) (q :: qs) (r1.drop qs.length) (r2.drop qs.length)
                (pos + (q :: qs).length) ?_ (by simp [hpq, hf2]) ?_
              · have := List.length_drop qs.length r1
                omega
              · rw [List.map_drop, List.map_drop, hs2]
            · rw [Bool.not_eq_true] at hm
              rw [findMatchesAux_cons_nomatch false p c1 ps r1 pos hm,
                findMatchesAux_cons_nomatch false q c2 qs r2 pos (by rw [← hmeq]; exact hm)]
              exact ih (p :: ps) (q :: qs) r1 r2 (pos + 1) hr1 (by simp [hpq, hf2]) hs2

/-- C7: with the default case-insensitive mode, matching depends only on
the lowercased find text and content, so every casing of an occurrence is
treated identically (same match offsets, hence counted and replaced alike);
with the case-sensitive flag, every counted match is a character-exact
occurrence of the find text. -/
theorem C7_case_modes :
    (∀ f1 f2 c1 c2 : List Char, f1.map Char.toLower = f2.map Char.toLower →
      c1.map Char.toLower = c2.map Char.toLower →
      findMatchesAux false f1 c1 0 = findMatchesAux false f2 c2 0) ∧
    (∀ (f c : List Char) (a e : Nat), (a, e) ∈ findMatchesAux true f c 0 →
      (c.drop a).take f.length = f) := by
  constructor
  · intro f1 f2 c1 c2 hf hs
    exact findMatchesAux_lower c1.length f1 f2 c1 c2 0 (le_refl _) hf hs
  · intro f c a e hm
    obtain ⟨_, _, _, h4⟩ := findMatchesAux_mem c.length true f c 0 a e (le_refl _) hm
    have h5 := isMatchAt_true_take h4
    simpa using h5

/-- C7 witness: case-insensitive `"john"` and `"John"` produce identical
match lists on `"John and JOHN"`; the case-sensitive match of `"John"`
starting at offset 0 is character-exact. -/
theorem C7_witness :
    findMatchesAux false "john".toList "John and JOHN".toList 0 =
      findMatchesAux false "John".toList "John and JOHN".toList 0 ∧
    ("John and JOHN".toList.drop 0).take "John".toList.length = "John".toList :=
  ⟨C7_case_modes.1 "john".toList "John".toList "John and JOHN".toList
      "John and JOHN".toList (by decide) rfl,
    C7_case_modes.2 "John".toList "John and JOHN".toList 0 4
      (by simp [findMatchesAux, isMatchAt, charsMatch])⟩

theorem count_take_mono (content : List Char) (a b : Nat) (hab : a ≤ b) :
    (content.take a).count '\n' ≤ (content.take b).count '\n' := by
  have h1 : (content.take b).take a = content.take a := by
    rw [List.take_take, Nat.min_eq_left hab]
  rw [← h1]
  exact (List.take_sublist a (content.take b)).count_le _

theorem pyRfind_append_no_newline (m : List Char) (hm : '\n' ∉ m) :
    ∀ xs : List Char, pyRfind (xs ++ m) = pyRfind xs := by
  induction m using List.reverseRecOn with
  | nil => intro xs; rw [List.append_nil]
  | append_singleton m c ih =>
    intro xs
    have hc : c ≠ '\n' := by
      intro hc
      exact hm (by rw [hc]; exact List.mem_append.mpr (Or.inr (List.mem_singleton_self _)))
    have hm2 : '\n' ∉ m := fun hx => hm (List.mem_append.mpr (Or.inl hx))
    rw [← List.append_assoc, pyRfind_append_singleton, if_neg hc]
    exact ih hm2 xs

theorem fallbackPos_mono (content : List Char) (a b : Nat) (hab : a ≤ b) :
    (fallbackPos content a).1 < (fallbackPos content b).1 ∨
    ((fallbackPos content a).1 = (fallbackPos content b).1 ∧
      (fallbackPos content a).2 ≤ (fallbackPos content b).2) := by
  have hcount := count_take_mono content a b hab
  by_cases hc : (content.take a).count '\n' = (content.take b).count '\n'
  · right
    have h1 : (content.take b).take a = content.take a := by
      rw [List.take_take, Nat.min_eq_left hab]
    have hmid : content.take b = content.take a ++ ((content.take b).drop a) := by
      conv_lhs => rw [← List.take_append_drop a (content.take b)]
      rw [h1]
    have hcnt2 : (content.take b).count '\n' =
        (content.take a).count '\n' + ((content.take b).drop a).count '\n' := by
      conv_lhs => rw [hmid]
      rw [List.count_append]
    have hnonl : '\n' ∉ (content.take b).drop a := by
      intro hmem
      have hpos : 0 < ((content.take b).drop a).count '\n' :=
        List.count_pos_iff.mpr hmem
      omega
    have hrf : pyRfind (content.take b) = pyRfind (content.take a) := by
      conv_lhs => rw [hmid]
      exact pyRfind_append_no_newline _ hnonl _
    refine ⟨by simp [fallbackPos, hc], ?_⟩
    simp only [fallbackPos]
    rw [hrf]
    have : (a : Int) ≤ (b : Int) := by omega
    omega
  · left
    simp only [fallbackPos]
    omega

/-- C8: every finding produced by the detector carries one of the ten
accepted categories, and entities whose label is outside the set contribute
no finding: filtering them away beforehand leaves the output unchanged. -/
theorem C8_category_filter (content : List Char) (ents : List Entity) :
    (∀ r ∈ find_proper_nouns content ents, r.2.2.2 ∈ proper_noun_types) ∧
    find_proper_nouns content ents =
      find_proper_nouns content
        (ents.filter (fun e => decide (e.label ∈ proper_noun_types))) := by
  constructor
  · intro r hr
    rw [find_proper_nouns, List.mem_filterMap] at hr
    obtain ⟨e, _, he⟩ := hr
    by_cases hl : e.label ∈ proper_noun_types
    · rw [if_pos hl] at he
      injection he with he2
      subst he2
      exact hl
    · rw [if_neg hl] at he
      cases he
  · induction ents with
    | nil => rfl
    | cons e es ih =>
      rw [find_proper_nouns, List.filterMap_cons, List.filter_cons]
      by_cases hl : e.label ∈ proper_noun_types
      · rw [if_pos hl, if_pos (by simpa using hl)]
        rw [find_proper_nouns, List.filterMap_cons, if_pos hl]
        rw [find_proper_nouns] at ih
        rw [ih]
        rfl
      · rw [if_neg hl, if_neg (by simpa using hl)]
        rw [find_proper_nouns] at ih
        exact ih

/-- C8 witness: a PERSON entity yields a finding whose category is in the
accepted set (a CARDINAL entity beside it yields none). -/
theorem C8_witness : ("PERSON".toList : List Char) ∈ proper_noun_types :=
  (C8_category_filter "Obama 42".toList
      [⟨"Obama".toList, 0, "PERSON".toList⟩, ⟨"42".toList, 6, "CARDINAL".toList⟩]).1
    ("Obama".toList, 1, 1, "PERSON".toList) (by decide)

/-- C10: match starts are strictly increasing, so the replacement records
are nondecreasing in (line, column) lexicographic order, and the printed
replacement table preserves the record order (the truncation map keeps line
and column untouched and applies no sort). -/
theorem C10_record_order (content find rep : List Char) (b dry : Bool) (out : ReplaceOutcome)
    (h : replace_proper_noun content find rep b dry = some out) :
    List.Pairwise (fun m1 m2 => m1.1 < m2.1) (findMatchesAux b find content 0) ∧
    List.Pairwise (fun r1 r2 => r1.1 < r2.1 ∨ (r1.1 = r2.1 ∧ r1.2.1 ≤ r2.2.1))
      out.replacements ∧
    (mainTableRows out.replacements).map (fun r => (r.1, r.2.1)) =
      out.replacements.map (fun r => (r.1, r.2.1)) := by
  have hpw := findMatchesAux_pairwise content.length b find content 0 (le_refl _)
  obtain ⟨items, _, hrecs, _, _, _⟩ := replace_fields content find rep b dry out h
  refine ⟨hpw, ?_, ?_⟩
  · rw [hrecs]
    refine List.Pairwise.map _ ?_ hpw
    intro m1 m2 hlt
    have hm := fallbackPos_mono content m1.1 m2.1 (le_of_lt hlt)
    rw [recordPos_eq_fallback, recordPos_eq_fallback]
    exact hm
  · rw [mainTableRows, List.map_map]
    rfl

/-- C10 witness: one match of `"a"` in `"ab"`: singleton ordered lists and
an order-preserving table. -/
theorem C10_witness :
    List.Pairwise (fun m1 m2 => m1.1 < m2.1) (findMatchesAux false ['a'] ['a', 'b'] 0) ∧
    List.Pairwise (fun r1 r2 => r1.1 < r2.1 ∨ (r1.1 = r2.1 ∧ r1.2.1 ≤ r2.2.1))
      ([(1, (1 : Int), ['a', 'b'])] : List (Nat × Int × List Char)) ∧
    (mainTableRows [(1, (1 : Int), ['a', 'b'])]).map (fun r => (r.1, r.2.1)) =
      ([(1, (1 : Int), ['a', 'b'])] : List (Nat × Int × List Char)).map
        (fun r => (r.1, r.2.1)) :=
  C10_record_order ['a', 'b'] ['a'] ['X'] false true
    ⟨1, [(1, 1, ['a', 'b'])], ['X', 'b'], none⟩
    (by simp [replace_proper_noun, parseTemplate, escStep, findMatchesAux, isMatchAt,
      charsMatch, substAux, expandTemplate, recordPos, char_to_line_col, pySplitLines,
      indexEntriesAux, lineEntries, contextOf, List.lookup])

end FindProperNouns
